import Mathlib

/-!
# Verification of the Postgrad English Pro audio orchestration core

Shallow embedding of the audio acquisition layer of a browser-based
shadowing tool: sentence splitting, the streaming TTS frame decoder and
connection state machine, the batch assembler, byte utilities (buffer
merging, WAV container construction), percent-encoded cache keys and
cache invalidation.  Each definition is translated from the TypeScript
source (`services/aiService.ts`, `utils/audioUtils.ts`, the cache
manager and the App component); theorems check the specification's
claims against these definitions.
-/

namespace PostgradTTS

/-! ## Sentence splitting

`splitSentences` in the cache manager (and, identically, in the App
component's text-processing effect) is

```
if (!txt) return [];
return (txt.match(/[^.!?\n]+[.!?\n]?/g) || [txt])
  .map(s => s.trim())
  .filter(s => s.length > 0);
```

The global regex repeatedly matches a maximal non-empty run of
characters other than `.`, `!`, `?`, newline, followed by at most one
such terminator; positions where no match can start (a terminator with
no preceding run) are skipped.  `splitAux` transliterates this scan:
`acc` is the reversed run collected so far. -/

/-- The sentence-terminator class `[.!?\n]` of the splitting regex. -/
def isTermC (c : Char) : Bool :=
  c = '.' || c = '!' || c = '?' || c = '\n'

/-- The character class stripped by JavaScript `String.prototype.trim`:
ASCII whitespace, NBSP, the Unicode space separators, line/paragraph
separators and the BOM. -/
def isWS (c : Char) : Bool :=
  (9 ≤ c.val && c.val ≤ 13) || c.val = 32 || c.val = 160 || c.val = 5760 ||
  (8192 ≤ c.val && c.val ≤ 8202) || c.val = 8232 || c.val = 8233 ||
  c.val = 8239 || c.val = 8287 || c.val = 12288 || c.val = 65279

/-- Drop trailing characters satisfying `isWS` (the right half of `trim`). -/
def rdropWS (l : List Char) : List Char :=
  (l.reverse.dropWhile isWS).reverse

/-- JavaScript `trim` on the character list: strip leading then trailing
whitespace. -/
def trimL (l : List Char) : List Char :=
  rdropWS (l.dropWhile isWS)

/-- JavaScript `s.trim()`. -/
def jsTrim (s : String) : String :=
  String.mk (trimL s.data)

@[simp] theorem data_mk (l : List Char) : (String.mk l).data = l := rfl

theorem jsTrim_mk (l : List Char) : jsTrim (String.mk l) = String.mk (trimL l) :=
  rfl

/-- The global-regex scan of `/[^.!?\n]+[.!?\n]?/g`: `acc` holds the
reversed current run of non-terminator characters.  A terminator ends
the pending run (and is kept with it); a terminator with no pending run
cannot start a match and is skipped; a leftover run at the end of the
input is emitted without a terminator. -/
def splitAux : List Char → List Char → List (List Char)
  | acc, [] => if acc.isEmpty then [] else [acc.reverse]
  | acc, c :: cs =>
    if isTermC c then
      if acc.isEmpty then splitAux [] cs
      else (acc.reverse ++ [c]) :: splitAux [] cs
    else splitAux (c :: acc) cs

/-- All matches of `/[^.!?\n]+[.!?\n]?/g` on the input, in order. -/
def matchRuns (l : List Char) : List (List Char) :=
  splitAux [] l

/-- `splitSentences` from the cache manager: empty input gives `[]`;
otherwise the regex matches (or, when the regex matches nothing, the
whole input) are trimmed and empty results are discarded. -/
def splitSentences (txt : String) : List String :=
  if txt = "" then []
  else
    (((if matchRuns txt.data = [] then [txt]
       else (matchRuns txt.data).map String.mk).map jsTrim).filter
      (fun s => 0 < s.length))

/-! ### Splitting lemmas -/

theorem dropWhile_head_false {p : Char → Bool} :
    ∀ {l : List Char} {c : Char} {r : List Char},
      l.dropWhile p = c :: r → p c = false := by
  intro l
  induction l with
  | nil => intro c r h; simp [List.dropWhile] at h
  | cons a t ih =>
    intro c r h
    by_cases hp : p a
    · rw [List.dropWhile_cons_of_pos hp] at h; exact ih h
    · rw [List.dropWhile_cons_of_neg hp] at h
      cases h
      exact Bool.eq_false_iff.mpr hp

/-- `rdropWS` returns a prefix of its argument. -/
theorem rdropWS_prefix (l : List Char) : (rdropWS l).IsPrefix l := by
  unfold rdropWS
  have h : ((l.reverse.dropWhile isWS).IsSuffix l.reverse) := by
    exact List.dropWhile_suffix _
  have := List.reverse_prefix.mpr h
  simpa using this

/-- The head of `l.dropWhile isWS` is not whitespace. -/
theorem head_trimL_not_ws {l : List Char} {c : Char} {r : List Char}
    (h : trimL l = c :: r) : isWS c = false := by
  unfold trimL at h
  rcases rdropWS_prefix (l.dropWhile isWS) with ⟨t, ht⟩
  rw [h] at ht
  exact dropWhile_head_false ht.symm

/-- The last element of `trimL l` is not whitespace. -/
theorem last_trimL_not_ws {l : List Char} {c : Char} {f : List Char}
    (h : trimL l = f ++ [c]) : isWS c = false := by
  unfold trimL rdropWS at h
  have h2 : (l.dropWhile isWS).reverse.dropWhile isWS = (f ++ [c]).reverse := by
    have := congrArg List.reverse h
    simpa using this
  rw [List.reverse_append] at h2
  simp only [List.reverse_cons, List.reverse_nil, List.nil_append,
    List.singleton_append] at h2
  exact dropWhile_head_false h2

/-- A list whose head and last element are not whitespace is fixed by
`trimL`. -/
theorem trimL_fixed {l : List Char}
    (hh : ∀ c r, l = c :: r → isWS c = false)
    (hl : ∀ f c, l = f ++ [c] → isWS c = false) : trimL l = l := by
  unfold trimL rdropWS
  have h1 : l.dropWhile isWS = l := by
    cases l with
    | nil => simp
    | cons c r => rw [List.dropWhile_cons_of_neg]; simp [hh c r rfl]
  rw [h1]
  have h2 : l.reverse.dropWhile isWS = l.reverse := by
    cases hrev : l.reverse with
    | nil => simp
    | cons c r =>
      rw [List.dropWhile_cons_of_neg]
      · have : l = (c :: r).reverse := by
          have := congrArg List.reverse hrev
          simpa using this
        simp only [List.reverse_cons] at this
        simp [hl r.reverse c this]
  rw [h2, List.reverse_reverse]

/-- `trimL` is idempotent. -/
theorem trimL_idem (l : List Char) : trimL (trimL l) = trimL l := by
  apply trimL_fixed
  · intro c r h; exact head_trimL_not_ws h
  · intro f c h; exact last_trimL_not_ws h

/-- On a terminator-free list, the scan returns the pending run plus the
whole list (as a single match if anything is there). -/
theorem splitAux_no_term {l : List Char} (hl : ∀ c ∈ l, isTermC c = false) :
    ∀ acc, splitAux acc l =
      if acc.isEmpty ∧ l = [] then [] else [acc.reverse ++ l] := by
  induction l with
  | nil =>
    intro acc
    by_cases h : acc.isEmpty <;> simp [splitAux, h]
  | cons c cs ih =>
    intro acc
    have hc : isTermC c = false := hl c (by simp)
    have hcs : ∀ x ∈ cs, isTermC x = false := fun x hx => hl x (by simp [hx])
    have h1 : splitAux acc (c :: cs) = splitAux (c :: acc) cs := by
      simp [splitAux, hc]
    rw [h1, ih hcs (c :: acc)]
    simp

/-- Scanning a terminator-free run followed by a terminator emits the run
with its terminator and continues after it. -/
theorem splitAux_run_term {r : List Char} (hr : ∀ c ∈ r, isTermC c = false)
    {t : Char} (ht : isTermC t = true) (rest : List Char) :
    ∀ acc, splitAux acc (r ++ t :: rest) =
      if acc.isEmpty ∧ r = [] then splitAux [] rest
      else (acc.reverse ++ r ++ [t]) :: splitAux [] rest := by
  induction r with
  | nil =>
    intro acc
    by_cases h : acc.isEmpty <;> simp [splitAux, ht, h]
  | cons c cs ih =>
    intro acc
    have hc : isTermC c = false := hr c (by simp)
    have hcs : ∀ x ∈ cs, isTermC x = false := fun x hx => hr x (by simp [hx])
    have h1 : splitAux acc ((c :: cs) ++ t :: rest) =
        splitAux (c :: acc) (cs ++ t :: rest) := by
      simp [splitAux, hc]
    rw [h1, ih hcs (c :: acc)]
    simp

theorem trimL_sublist (l : List Char) : (trimL l).Sublist l := by
  unfold trimL rdropWS
  have h1 : ((l.dropWhile isWS).reverse.dropWhile isWS).reverse.Sublist
      (l.dropWhile isWS).reverse.reverse :=
    List.Sublist.reverse ((l.dropWhile isWS).reverse.dropWhile_sublist isWS)
  rw [List.reverse_reverse] at h1
  exact h1.trans (l.dropWhile_sublist isWS)

theorem rdropWS_append_ws {c : Char} (hc : isWS c = true) (y : List Char) :
    rdropWS (y ++ [c]) = rdropWS y := by
  unfold rdropWS
  rw [List.reverse_append]
  simp only [List.reverse_cons, List.reverse_nil, List.nil_append,
    List.singleton_append, List.dropWhile_cons_of_pos hc]

theorem rdropWS_append_nonws {c : Char} (hc : isWS c = false) (y : List Char) :
    rdropWS (y ++ [c]) = y ++ [c] := by
  unfold rdropWS
  rw [List.reverse_append]
  have h1 : (([c].reverse ++ y.reverse : List Char)) = c :: y.reverse := by simp
  rw [h1, List.dropWhile_cons_of_neg (by simp [hc])]
  simp

/-- Appending a whitespace character does not change the trimmed result. -/
theorem trimL_append_ws {c : Char} (hc : isWS c = true) (x : List Char) :
    trimL (x ++ [c]) = trimL x := by
  unfold trimL
  rw [List.dropWhile_append]
  by_cases h : (x.dropWhile isWS).isEmpty
  · simp only [h, if_true]
    rw [List.dropWhile_cons_of_pos hc]
    simp only [List.dropWhile_nil]
    rw [List.isEmpty_iff] at h
    rw [h]
  · simp only [h, if_false]
    exact rdropWS_append_ws hc _

/-- Appending a non-whitespace character: trimming only strips the left
side. -/
theorem trimL_append_nonws {c : Char} (hc : isWS c = false) (x : List Char) :
    trimL (x ++ [c]) = x.dropWhile isWS ++ [c] := by
  unfold trimL
  rw [List.dropWhile_append]
  by_cases h : (x.dropWhile isWS).isEmpty
  · simp only [h, if_true]
    rw [List.isEmpty_iff] at h
    rw [h, List.nil_append]
    show rdropWS ((c :: []).dropWhile isWS) = [c]
    rw [List.dropWhile_cons_of_neg (by simp [hc])]
    simpa using rdropWS_append_nonws hc []
  · simp only [h, if_false]
    exact rdropWS_append_nonws hc _

/-- A scan starting with a pending run never returns the empty match
list. -/
theorem splitAux_ne_nil :
    ∀ (l acc : List Char), acc ≠ [] → splitAux acc l ≠ [] := by
  intro l
  induction l with
  | nil => intro acc ha; simp [splitAux, List.isEmpty_iff, ha]
  | cons c cs ih =>
    intro acc ha
    by_cases hc : isTermC c
    · simp [splitAux, hc, List.isEmpty_iff, ha]
    · simpa [splitAux, hc] using ih (c :: acc) (by simp)

/-- The regex finds no match exactly on inputs made only of
terminators. -/
theorem matchRuns_eq_nil {l : List Char} (h : matchRuns l = []) :
    ∀ c ∈ l, isTermC c = true := by
  unfold matchRuns at h
  induction l with
  | nil => simp
  | cons c cs ih =>
    by_cases hc : isTermC c
    · intro x hx
      rcases List.mem_cons.mp hx with rfl | hx
      · exact hc
      · have h2 : splitAux [] cs = [] := by simpa [splitAux, hc] using h
        exact ih h2 x hx
    · exfalso
      have h2 : splitAux ([c] : List Char) cs = [] := by
        simpa [splitAux, hc] using h
      exact splitAux_ne_nil cs [c] (by simp) h2

/-- On all-terminator input the regex finds no match. -/
theorem matchRuns_all_term {l : List Char} (h : ∀ c ∈ l, isTermC c = true) :
    matchRuns l = [] := by
  unfold matchRuns
  induction l with
  | nil => rfl
  | cons c cs ih =>
    have hc : isTermC c = true := h c (by simp)
    have := ih (fun x hx => h x (by simp [hx]))
    simpa [splitAux, hc] using this

/-- Every regex match is non-empty and contains terminators at most in
its final position. -/
theorem splitAux_shape :
    ∀ (l acc : List Char), (∀ c ∈ acc, isTermC c = false) →
      ∀ m ∈ splitAux acc l, m ≠ [] ∧ ∀ c ∈ m.dropLast, isTermC c = false := by
  intro l
  induction l with
  | nil =>
    intro acc hacc m hm
    by_cases h : acc.isEmpty
    · simp [splitAux, h] at hm
    · rw [show splitAux acc [] = [acc.reverse] from by simp [splitAux, h]] at hm
      rcases List.mem_singleton.mp hm with rfl
      constructor
      · simp [List.isEmpty_iff] at h
        simpa using h
      · intro c hc
        exact hacc c (by
          have := (List.dropLast_sublist acc.reverse).mem hc
          simpa using this)
  | cons c cs ih =>
    intro acc hacc m hm
    by_cases hc : isTermC c
    · by_cases h : acc.isEmpty
      · rw [show splitAux acc (c :: cs) = splitAux [] cs by
          simp [splitAux, hc, h]] at hm
        exact ih [] (by simp) m hm
      · rw [show splitAux acc (c :: cs) =
            (acc.reverse ++ [c]) :: splitAux [] cs by simp [splitAux, hc, h]] at hm
        rcases List.mem_cons.mp hm with rfl | hm
        · refine ⟨by simp, ?_⟩
          rw [List.dropLast_concat]
          intro x hx
          exact hacc x (by simpa using hx)
        · exact ih [] (by simp) m hm
    · rw [show splitAux acc (c :: cs) = splitAux (c :: acc) cs by
        simp [splitAux, hc]] at hm
      refine ih (c :: acc) ?_ m hm
      intro x hx
      rcases List.mem_cons.mp hx with rfl | hx
      · exact Bool.eq_false_iff.mpr hc
      · exact hacc x hx

theorem mk_eq_empty_iff (d : List Char) : String.mk d = "" ↔ d = [] := by
  constructor
  · intro h
    have := congrArg String.data h
    simpa using this
  · intro h; subst h; rfl

theorem length_pos_iff (s : String) : 0 < s.length ↔ s ≠ "" := by
  constructor
  · intro h heq
    subst heq
    exact absurd h (by decide)
  · intro h
    have hd : s.data ≠ [] := by
      intro hd
      exact h ((mk_eq_empty_iff s.data).mpr hd)
    show 0 < s.data.length
    exact List.length_pos.mpr hd

/-- Unfolded form of `splitSentences` on an explicit character list. -/
theorem splitSentences_mk {d : List Char} (hne : d ≠ []) :
    splitSentences (String.mk d) =
      ((if matchRuns d = [] then [d] else matchRuns d).map
        (fun m => String.mk (trimL m))).filter (fun s => 0 < s.length) := by
  unfold splitSentences
  rw [if_neg (fun h => hne ((mk_eq_empty_iff d).mp h))]
  show (((if matchRuns d = [] then [String.mk d]
      else (matchRuns d).map String.mk).map jsTrim).filter
    (fun s => 0 < s.length)) = _
  by_cases hms : matchRuns d = []
  · simp [hms, jsTrim_mk]
  · simp only [hms, if_false, List.map_map]
    congr 1

/-- Every element of `splitSentences txt` is the trim of a regex match
(or the trim of the whole input when the regex found no match). -/
theorem mem_splitSentences {txt : String} {s : String}
    (h : s ∈ splitSentences txt) :
    0 < s.length ∧ ∃ m : List Char, s.data = trimL m ∧
      (m ∈ matchRuns txt.data ∨ (matchRuns txt.data = [] ∧ m = txt.data)) := by
  unfold splitSentences at h
  by_cases he : txt = ""
  · simp [he] at h
  · simp only [he, if_false] at h
    rcases List.mem_filter.mp h with ⟨hmem, hlen⟩
    refine ⟨by simpa using hlen, ?_⟩
    rcases List.mem_map.mp hmem with ⟨b, hb, rfl⟩
    by_cases hms : matchRuns txt.data = []
    · refine ⟨txt.data, ?_, Or.inr ⟨hms, rfl⟩⟩
      simp only [hms, if_true, List.mem_singleton] at hb
      subst hb
      rfl
    · simp only [hms, if_false] at hb
      rcases List.mem_map.mp hb with ⟨m, hm, rfl⟩
      exact ⟨m, rfl, Or.inl hm⟩

/-- The regex matches a non-empty, terminator-free-up-to-the-last-spot
or all-terminator input as one single run (through the fallback when no
match exists). -/
theorem matchRuns_if_single {d : List Char} (hne : d ≠ [])
    (hshape : (∀ c ∈ d.dropLast, isTermC c = false) ∨
      (∀ c ∈ d, isTermC c = true)) :
    (if matchRuns d = [] then [d] else matchRuns d) = [d] := by
  rcases hshape with hnt | hat
  · rcases List.eq_nil_or_concat d with rfl | ⟨front, lc, hd⟩
    · exact absurd rfl hne
    · rw [List.concat_eq_append] at hd
      subst hd
      rw [List.dropLast_concat] at hnt
      by_cases hc : isTermC lc
      · rcases List.eq_nil_or_concat front with rfl | ⟨f2, c2, hf⟩
        · -- a lone terminator: the regex finds nothing, fall back
          have hms : matchRuns ([] ++ [lc]) = [] :=
            matchRuns_all_term (by intro x hx; simp at hx; subst hx; exact hc)
          rw [hms]
          simp
        · -- a run followed by its terminator: one match
          rw [List.concat_eq_append] at hf
          subst hf
          have hms : matchRuns ((f2 ++ [c2]) ++ [lc]) = [(f2 ++ [c2]) ++ [lc]] := by
            unfold matchRuns
            have h := splitAux_run_term hnt hc [] []
            rw [if_neg (by simp)] at h
            have h0 : splitAux ([] : List Char) [] = [] := rfl
            rw [h0] at h
            simpa using h
          rw [hms]
          rw [if_neg (by simp)]
      · -- no terminator at all: one match covering everything
        have hnt' : ∀ c ∈ front ++ [lc], isTermC c = false := by
          intro x hx
          rcases List.mem_append.mp hx with hx | hx
          · exact hnt x hx
          · simp at hx; subst hx; exact Bool.eq_false_iff.mpr hc
        have hms : matchRuns (front ++ [lc]) = [front ++ [lc]] := by
          unfold matchRuns
          rw [splitAux_no_term hnt' []]
          simp
        rw [hms]
        rw [if_neg (by simp)]
  · rw [matchRuns_all_term hat]
    simp

/-- The core fixed-point lemma: a non-empty, trimmed string whose
terminators are confined to the last position (or which is made only of
terminators) splits to exactly itself. -/
theorem splitSentences_fixed {d : List Char} (hne : d ≠ [])
    (htr : trimL d = d)
    (hshape : (∀ c ∈ d.dropLast, isTermC c = false) ∨
      (∀ c ∈ d, isTermC c = true)) :
    splitSentences (String.mk d) = [String.mk d] := by
  rw [splitSentences_mk hne, matchRuns_if_single hne hshape]
  simp only [List.map_cons, List.map_nil, htr]
  rw [List.filter_cons_of_pos]
  · rfl
  · simp only [decide_eq_true_eq]
    show 0 < d.length
    exact List.length_pos.mpr hne

/-! ### Claims C1 and C10 -/

/-- C1, counterexample: the claim that splitting any non-empty text with
no terminal punctuation yields the whole trimmed string as a
single-element list fails on whitespace-only input.  `" "` is non-empty
and contains no terminator, yet `splitSentences " "` is `[]`, not
`[jsTrim " "] = [""]` (the trimmed-empty result is filtered out). -/
theorem claimC1_cx :
    splitSentences " " = [] ∧ splitSentences " " ≠ [jsTrim " "] := by
  decide

/-- C1 (amended): `splitSentences` splits on maximal terminator-free
runs with their optional terminator, trims and drops empty results;
`"Hello world. This is fine! And?"` splits into exactly its three
sentences; the empty string splits to `[]`; and non-empty text with no
terminal punctuation *and a non-whitespace character* yields the whole
trimmed string as a single-element list (whitespace-only text instead
yields `[]`, forced by the counterexample). -/
theorem claimC1_ok :
    splitSentences "Hello world. This is fine! And?" =
      ["Hello world.", "This is fine!", "And?"] ∧
    splitSentences "" = [] ∧
    ∀ txt : String, txt ≠ "" → (∀ c ∈ txt.data, isTermC c = false) →
      jsTrim txt ≠ "" → splitSentences txt = [jsTrim txt] := by
  refine ⟨by decide, by decide, ?_⟩
  intro txt hne hnt htr
  have hd : txt.data ≠ [] := fun h => hne ((mk_eq_empty_iff txt.data).mpr h)
  have hms : matchRuns txt.data = [txt.data] := by
    unfold matchRuns
    rw [splitAux_no_term hnt []]
    rw [if_neg (by simp [hd])]
    simp
  show splitSentences (String.mk txt.data) = [jsTrim txt]
  rw [splitSentences_mk hd, hms]
  rw [if_neg (by simp)]
  simp only [List.map_cons, List.map_nil]
  rw [List.filter_cons_of_pos]
  · rfl
  · simp only [decide_eq_true_eq]
    exact (length_pos_iff (jsTrim txt)).mpr htr

/-- Witness for C1: instantiating the universally quantified conjunct at
`"abc"`. -/
theorem claimC1_witness :
    ("abc" : String) ≠ "" ∧ (∀ c ∈ ("abc" : String).data, isTermC c = false) ∧
      jsTrim "abc" ≠ "" ∧ splitSentences "abc" = [jsTrim "abc"] :=
  ⟨by decide, by decide, by decide,
    claimC1_ok.2.2 "abc" (by decide) (by decide) (by decide)⟩

/-- C10: every element of `splitSentences txt` is non-empty, carries no
leading or trailing whitespace (it is a `jsTrim` fixed point), and
re-splitting it yields exactly the one-element list containing it
unchanged. -/
theorem claimC10_ok (txt s : String) (hs : s ∈ splitSentences txt) :
    s ≠ "" ∧ jsTrim s = s ∧ splitSentences s = [s] := by
  obtain ⟨hlen, m, hdata, hm⟩ := mem_splitSentences hs
  have hne : s ≠ "" := (length_pos_iff s).mp hlen
  have hdne : s.data ≠ [] := fun h => hne ((mk_eq_empty_iff s.data).mpr h)
  have htrim : trimL s.data = s.data := by rw [hdata, trimL_idem]
  have hjs : jsTrim s = s := by
    show String.mk (trimL s.data) = s
    rw [htrim]
  refine ⟨hne, hjs, ?_⟩
  have hshape : (∀ c ∈ s.data.dropLast, isTermC c = false) ∨
      (∀ c ∈ s.data, isTermC c = true) := by
    rcases hm with hmem | ⟨hnil, rfl⟩
    · left
      obtain ⟨hmne, hmnt⟩ := splitAux_shape _ [] (by simp) m hmem
      rcases List.eq_nil_or_concat m with rfl | ⟨front, lc, hmd⟩
      · exact absurd rfl hmne
      · rw [List.concat_eq_append] at hmd
        subst hmd
        rw [List.dropLast_concat] at hmnt
        by_cases hws : isWS lc
        · rw [hdata, trimL_append_ws hws]
          intro c hcm
          exact hmnt c ((trimL_sublist front).subset
            ((List.dropLast_sublist _).subset hcm))
        · rw [hdata, trimL_append_nonws (Bool.eq_false_iff.mpr hws)]
          rw [List.dropLast_concat]
          intro c hcm
          exact hmnt c ((front.dropWhile_sublist isWS).subset hcm)
    · right
      have hterm := matchRuns_eq_nil hnil
      rw [hdata]
      intro c hcm
      exact hterm c ((trimL_sublist txt.data).subset hcm)
  exact splitSentences_fixed hdne htrim hshape

/-- Witness for C10 at a concrete passage and sentence. -/
theorem claimC10_witness :
    ("Hello world." : String) ∈ splitSentences "Hello world. Bye." ∧
      (("Hello world." : String) ≠ "" ∧
        jsTrim "Hello world." = "Hello world." ∧
        splitSentences "Hello world." = ["Hello world."]) :=
  ⟨by decide, claimC10_ok "Hello world. Bye." "Hello world." (by decide)⟩

/-! ## Audio byte utilities (`utils/audioUtils.ts`)

Byte buffers (`Uint8Array`) are modelled as `List Nat` with entries
below 256 where produced by the code. -/

/-- `mergeBuffers`: allocate the total length, then copy each buffer at
its running offset — concatenation in input order.  Modelled by the
left fold of the copy loop. -/
def mergeBuffers (buffers : List (List Nat)) : List Nat :=
  buffers.foldl (fun acc b => acc ++ b) []

theorem foldl_append_eq (init : List Nat) :
    ∀ bs : List (List Nat), bs.foldl (fun acc b => acc ++ b) init =
      init ++ bs.flatten := by
  intro bs
  induction bs generalizing init with
  | nil => simp
  | cons b t ih => simp [List.foldl_cons, ih (init ++ b)]

theorem mergeBuffers_eq_flatten (bs : List (List Nat)) :
    mergeBuffers bs = bs.flatten := by
  unfold mergeBuffers
  rw [foldl_append_eq]
  rfl

/-- Dropping the lengths of the first `i` buffers lands on buffer `i`. -/
theorem flatten_drop_offsets :
    ∀ (bs : List (List Nat)) (i : Nat),
      bs.flatten.drop (((bs.take i).map List.length).sum) =
        (bs.drop i).flatten := by
  intro bs
  induction bs with
  | nil => intro i; simp
  | cons b t ih =>
    intro i
    cases i with
    | zero => simp
    | succ j =>
      simp only [List.take_succ_cons, List.map_cons, List.sum_cons,
        List.flatten_cons, List.drop_succ_cons]
      rw [List.drop_append, ih j]

/-- `setUint16(…, little-endian)` byte pair. -/
def u16le (n : Nat) : List Nat :=
  [n % 256, n / 256 % 256]

/-- `setUint32(…, little-endian)` byte quadruple (truncation modulo
`2^32` is inherent in the byte extraction). -/
def u32le (n : Nat) : List Nat :=
  [n % 256, n / 256 % 256, n / 65536 % 256, n / 16777216 % 256]

/-- `writeString`: one byte per ASCII character code. -/
def asciiBytes (s : String) : List Nat :=
  s.data.map Char.toNat

/-- `createWavBlob`: the 44-byte RIFF/WAVE header written field by field
at offsets 0,4,8,12,16,20,22,24,28,32,34,36,40, followed by the raw PCM
payload. -/
def createWavBlob (pcmData : List Nat) (sampleRate : Nat) : List Nat :=
  asciiBytes "RIFF" ++ u32le (36 + pcmData.length) ++ asciiBytes "WAVE" ++
  asciiBytes "fmt " ++ u32le 16 ++ u16le 1 ++ u16le 1 ++ u32le sampleRate ++
  u32le (sampleRate * 2) ++ u16le 2 ++ u16le 16 ++ asciiBytes "data" ++
  u32le pcmData.length ++ pcmData

/-! ### Claim C6 -/

/-- C6: for every PCM payload of `N` bytes and every sample rate `R`,
`createWavBlob` produces a 44-byte header followed by the payload; the
bytes at offsets 4–7 are the little-endian encoding of `36 + N`, the
data-length field at offset 40 encodes `N`, the format tag (offset 20)
is 1 (PCM), the channel count (offset 22) is 1 (mono), bits per sample
(offset 34) is 16, and the sample-rate field (offset 24) encodes `R`. -/
theorem claimC6_ok (pcm : List Nat) (R : Nat) :
    (createWavBlob pcm R).length = 44 + pcm.length ∧
    (createWavBlob pcm R).drop 44 = pcm ∧
    ((createWavBlob pcm R).drop 4).take 4 = u32le (36 + pcm.length) ∧
    ((createWavBlob pcm R).drop 40).take 4 = u32le pcm.length ∧
    ((createWavBlob pcm R).drop 20).take 2 = u16le 1 ∧
    ((createWavBlob pcm R).drop 22).take 2 = u16le 1 ∧
    ((createWavBlob pcm R).drop 34).take 2 = u16le 16 ∧
    ((createWavBlob pcm R).drop 24).take 4 = u32le R := by
  have hdr : createWavBlob pcm R =
      82 :: 73 :: 70 :: 70 ::
      ((36 + pcm.length) % 256) :: ((36 + pcm.length) / 256 % 256) ::
      ((36 + pcm.length) / 65536 % 256) ::
      ((36 + pcm.length) / 16777216 % 256) ::
      87 :: 65 :: 86 :: 69 :: 102 :: 109 :: 116 :: 32 ::
      16 :: 0 :: 0 :: 0 :: 1 :: 0 :: 1 :: 0 ::
      (R % 256) :: (R / 256 % 256) :: (R / 65536 % 256) ::
      (R / 16777216 % 256) ::
      (R * 2 % 256) :: (R * 2 / 256 % 256) :: (R * 2 / 65536 % 256) ::
      (R * 2 / 16777216 % 256) ::
      2 :: 0 :: 16 :: 0 :: 100 :: 97 :: 116 :: 97 ::
      (pcm.length % 256) :: (pcm.length / 256 % 256) ::
      (pcm.length / 65536 % 256) :: (pcm.length / 16777216 % 256) :: pcm := rfl
  rw [hdr]
  refine ⟨?_, rfl, rfl, rfl, rfl, rfl, rfl, rfl⟩
  simp only [List.length_cons]
  omega

/-! ## Batch audio assembler (`generateFullTextAudio`)

The sequential loop

```
for (const text of texts) {
  const buffer = await fetchRawAudio(text);
  buffers.push(buffer);
}
const merged = mergeBuffers(buffers);
```

with the surrounding try/catch that rethrows any error unchanged.  The
adapter is a parameter `f`; the model additionally records the list of
texts for which the adapter was invoked. -/
def synthAllTrace (f : String → Except String (List Nat)) :
    List String → List String × Except String (List (List Nat))
  | [] => ([], Except.ok [])
  | t :: ts =>
    match f t with
    | Except.error e => ([t], Except.error e)
    | Except.ok b =>
      let r := synthAllTrace f ts
      (t :: r.1, r.2.map (fun bs => b :: bs))

theorem synthAllTrace_ok (f : String → Except String (List Nat)) :
    ∀ texts : List String, (∀ s ∈ texts, ∃ b, f s = Except.ok b) →
      ∃ bs : List (List Nat),
        synthAllTrace f texts = (texts, Except.ok bs) ∧
        bs.length = texts.length ∧
        ∀ i (hi : i < texts.length) (hb : i < bs.length),
          f (texts.get ⟨i, hi⟩) = Except.ok (bs.get ⟨i, hb⟩) := by
  intro texts
  induction texts with
  | nil => intro _; exact ⟨[], rfl, rfl, by intro i hi; simp at hi⟩
  | cons t ts ih =>
    intro h
    obtain ⟨b, hb⟩ := h t (by simp)
    obtain ⟨bs, htr, hlen, hget⟩ := ih (fun s hs => h s (by simp [hs]))
    refine ⟨b :: bs, ?_, by simp [hlen], ?_⟩
    · simp only [synthAllTrace, hb, htr]
      rfl
    · intro i hi hbs
      cases i with
      | zero => exact hb
      | succ j =>
        exact hget j (by simpa using hi) (by simpa using hbs)

theorem synthAllTrace_error (f : String → Except String (List Nat)) :
    ∀ (pre : List String) (t : String) (suf : List String) (e : String),
      (∀ s ∈ pre, ∃ b, f s = Except.ok b) → f t = Except.error e →
      synthAllTrace f (pre ++ t :: suf) = (pre ++ [t], Except.error e) := by
  intro pre
  induction pre with
  | nil =>
    intro t suf e _ ht
    simp only [List.nil_append, synthAllTrace, ht]
  | cons p pre ih =>
    intro t suf e hpre ht
    obtain ⟨b, hb⟩ := hpre p (by simp)
    have hih := ih t suf e (fun s hs => hpre s (by simp [hs])) ht
    simp only [List.cons_append, synthAllTrace, hb, List.append_eq, hih]
    rfl

/-! ### Claim C5 -/

/-- C5: `generateFullTextAudio` synthesizes strictly sequentially in
input order.  If synthesis of some sentence rejects (and all earlier
sentences succeeded), the whole batch rejects with that same error and
the adapter is invoked only for the sentences up to and including the
failing one.  If every sentence succeeds, the result collects each
sentence's payload in input order, and the merged output has byte length
equal to the sum of the payload lengths with each payload appearing at
its in-order offset. -/
theorem claimC5_ok (f : String → Except String (List Nat)) :
    (∀ (pre : List String) (t : String) (suf : List String) (e : String),
      (∀ s ∈ pre, ∃ b, f s = Except.ok b) → f t = Except.error e →
      synthAllTrace f (pre ++ t :: suf) = (pre ++ [t], Except.error e)) ∧
    (∀ texts : List String, (∀ s ∈ texts, ∃ b, f s = Except.ok b) →
      ∃ bs : List (List Nat),
        synthAllTrace f texts = (texts, Except.ok bs) ∧
        bs.length = texts.length ∧
        (∀ i (hi : i < texts.length) (hb : i < bs.length),
          f (texts.get ⟨i, hi⟩) = Except.ok (bs.get ⟨i, hb⟩)) ∧
        (mergeBuffers bs).length = (bs.map List.length).sum ∧
        ∀ i (hb : i < bs.length),
          ((mergeBuffers bs).drop (((bs.take i).map List.length).sum)).take
            (bs.get ⟨i, hb⟩).length = bs.get ⟨i, hb⟩) := by
  constructor
  · exact synthAllTrace_error f
  · intro texts h
    obtain ⟨bs, htr, hlen, hget⟩ := synthAllTrace_ok f texts h
    refine ⟨bs, htr, hlen, hget, ?_, ?_⟩
    · rw [mergeBuffers_eq_flatten]
      exact List.length_flatten bs
    · intro i hb
      rw [mergeBuffers_eq_flatten, flatten_drop_offsets bs i]
      have hdrop : bs.drop i = bs.get ⟨i, hb⟩ :: bs.drop (i + 1) :=
        List.drop_eq_getElem_cons hb
      rw [hdrop]
      simp only [List.flatten_cons]
      exact List.take_left _ _

/-- A mock adapter that fails exactly on `"S2"`. -/
def mockSynth : String → Except String (List Nat) :=
  fun s => if s = "S2" then Except.error "boom" else Except.ok [1, 2, 3]

/-- Witness for C5: with the mock adapter failing on `S2`, the batch
over `[S1, S2, S3]` stops after `S2` and propagates the error. -/
theorem claimC5_witness :
    synthAllTrace mockSynth ["S1", "S2", "S3"] =
      (["S1", "S2"], Except.error "boom") :=
  (claimC5_ok mockSynth).1 ["S1"] "S2" ["S3"] "boom"
    (fun s hs => ⟨[1, 2, 3], by rcases List.mem_singleton.mp hs with rfl; rfl⟩)
    rfl

/-! ## Streaming frame decoding (`callDoubaoTTS`, V3 WebSocket)

`socket.onmessage` parses an inbound binary frame with `DataView`
accesses: `getUint8(1)` for the message-type nibble, big-endian
`getUint32(4)` for the payload size (read but unused), and for audio
frames (type `0xB`): skip the 4-byte event code, read the 4-byte
session-identifier length at offset 12, skip the identifier, read the
4-byte audio length, and slice out the audio block only when it fits
(`offset + audioLen <= buffer.byteLength`).  For error frames (type
`0xF`) the code reads a 4-byte error code at offset 8 and decodes the
remaining bytes as the message.  A `DataView` read beyond the buffer
throws a `RangeError`; the model returns `threw` for that (the source
performs these reads unguarded). -/

/-- `DataView.getUint8`: `none` models the out-of-bounds throw. -/
def getU8 (b : List Nat) (off : Nat) : Option Nat :=
  match b.drop off with
  | x :: _ => some x
  | [] => none

/-- Big-endian `DataView.getUint32`; `none` models the out-of-bounds
throw. -/
def getU32BE (b : List Nat) (off : Nat) : Option Nat :=
  match b.drop off with
  | b0 :: b1 :: b2 :: b3 :: _ => some (((b0 * 256 + b1) * 256 + b2) * 256 + b3)
  | _ => none

/-- Big-endian 4-byte encoding, for constructing synthetic frames. -/
def u32be (n : Nat) : List Nat :=
  [n / 16777216 % 256, n / 65536 % 256, n / 256 % 256, n % 256]

/-- Outcome of the `onmessage` handler's frame parsing. -/
inductive DecodeResult where
  | audio (bytes : List Nat)
  | noAudio
  | errorFrame (code : Nat) (msgBytes : List Nat)
  | ignored
  | threw
deriving DecidableEq

/-- The frame parsing performed by `socket.onmessage`, transliterated
read by read. -/
def decodeFrame (b : List Nat) : DecodeResult :=
  match getU8 b 1 with
  | none => DecodeResult.threw
  | some t1 =>
    match getU32BE b 4 with
    | none => DecodeResult.threw
    | some _payloadSize =>
      if t1 / 16 = 11 then
        match getU32BE b 12 with
        | none => DecodeResult.threw
        | some sessionIdLen =>
          match getU32BE b (16 + sessionIdLen) with
          | none => DecodeResult.threw
          | some audioLen =>
            if 20 + sessionIdLen + audioLen ≤ b.length then
              DecodeResult.audio ((b.drop (20 + sessionIdLen)).take audioLen)
            else DecodeResult.noAudio
      else if t1 / 16 = 15 then
        match getU32BE b 8 with
        | none => DecodeResult.threw
        | some errCode => DecodeResult.errorFrame errCode (b.drop 12)
      else DecodeResult.ignored

theorem getU8_spec {b : List Nat} {off : Nat} {x : Nat} {rest : List Nat}
    (h : b.drop off = x :: rest) : getU8 b off = some x := by
  unfold getU8
  rw [h]

theorem getU32BE_spec {b : List Nat} {off n : Nat} {rest : List Nat}
    (h : b.drop off = u32be n ++ rest) (hn : n < 4294967296) :
    getU32BE b off = some n := by
  unfold getU32BE
  rw [h]
  show some (((n / 16777216 % 256 * 256 + n / 65536 % 256) * 256 +
    n / 256 % 256) * 256 + n % 256) = some n
  refine congrArg some ?_
  omega

theorem exists_getU8 {b : List Nat} {off : Nat} (h : off < b.length) :
    ∃ x, getU8 b off = some x := by
  have hl : (b.drop off).length = b.length - off := List.length_drop off b
  rcases hd : b.drop off with _ | ⟨x, t⟩
  · rw [hd] at hl; simp at hl; omega
  · exact ⟨x, getU8_spec hd⟩

theorem exists_getU32BE {b : List Nat} {off : Nat} (h : off + 4 ≤ b.length) :
    ∃ n, getU32BE b off = some n := by
  have hl : (b.drop off).length = b.length - off := List.length_drop off b
  rcases hd : b.drop off with _ | ⟨b0, _ | ⟨b1, _ | ⟨b2, _ | ⟨b3, t⟩⟩⟩⟩ <;>
    first
      | (exfalso; rw [hd] at hl; simp at hl; omega)
      | exact ⟨_, by unfold getU32BE; rw [hd]⟩

/-! ## Streaming connection state machine (`callDoubaoTTS`)

The promise body owns `audioChunks` and `hasError`; the socket
callbacks (`onmessage`, `onerror`, `onclose`) and the 15-second timeout
callback mutate them and settle the promise, which keeps only its first
resolution. -/

/-- A typed account of the rejection paths of `callDoubaoTTS`. -/
inductive RejectReason where
  | missingCredentials
  | apiError (code : Nat) (msgBytes : List Nat)
  | wsFailed
  | closedNoAudio (closeCode : Nat)
  | timedOut
deriving DecidableEq

inductive TTSOutcome where
  | resolved (bytes : List Nat)
  | rejected (reason : RejectReason)
deriving DecidableEq

/-- The mutable state shared by the socket callbacks: the accumulated
audio chunks, the `hasError` flag, whether the socket has been closed,
and the promise settlement (`none` while pending). -/
structure ConnState where
  audioChunks : List (List Nat)
  hasError : Bool
  closed : Bool
  result : Option TTSOutcome
deriving DecidableEq

def initState : ConnState :=
  { audioChunks := [], hasError := false, closed := false, result := none }

/-- A promise settles only once: later resolutions are ignored. -/
def settle (st : ConnState) (r : TTSOutcome) : Option TTSOutcome :=
  match st.result with
  | some r0 => some r0
  | none => some r

/-- The externally observable events of one connection attempt. -/
inductive ConnEvent where
  | message (frame : List Nat)
  | socketError
  | close (code : Nat)
  | timeout
deriving DecidableEq

/-- One callback firing, transliterated from the `onmessage`,
`onerror`, `onclose` and timeout handlers. -/
def step (st : ConnState) (e : ConnEvent) : ConnState :=
  match e with
  | ConnEvent.message f =>
    if st.closed then st
    else
      match decodeFrame f with
      | DecodeResult.audio bytes =>
        { st with audioChunks := st.audioChunks ++ [bytes] }
      | DecodeResult.errorFrame code msg =>
        { st with hasError := true, closed := true,
                  result := settle st (TTSOutcome.rejected
                    (RejectReason.apiError code msg)) }
      | _ => st
  | ConnEvent.socketError =>
    if st.hasError then st
    else { st with hasError := true,
                   result := settle st (TTSOutcome.rejected RejectReason.wsFailed) }
  | ConnEvent.close code =>
    if st.hasError then { st with closed := true }
    else if st.audioChunks.isEmpty then
      { st with closed := true,
                result := settle st (TTSOutcome.rejected
                  (RejectReason.closedNoAudio code)) }
    else
      { st with closed := true,
                result := settle st (TTSOutcome.resolved
                  (mergeBuffers st.audioChunks)) }
  | ConnEvent.timeout =>
    if st.closed then st
    else if !st.audioChunks.isEmpty && !st.hasError then
      { st with closed := true,
                result := settle st (TTSOutcome.resolved
                  (mergeBuffers st.audioChunks)) }
    else if !st.hasError then
      { st with closed := true,
                result := settle st (TTSOutcome.rejected RejectReason.timedOut) }
    else { st with closed := true }

/-- A connection attempt: the callbacks fire in event order. -/
def runEvents (evs : List ConnEvent) : ConnState :=
  evs.foldl step initState

/-- The credential check performed before the socket is even created:
`if (!settings.doubaoAppId || !settings.doubaoToken) reject`. -/
def doubaoWSCredCheck (appId token : String) : Option RejectReason :=
  if appId = "" || token = "" then some RejectReason.missingCredentials
  else none

/-- Discriminator for frames the `onmessage` handler treats as error
frames. -/
def isErrFrame (f : List Nat) : Bool :=
  match decodeFrame f with
  | DecodeResult.errorFrame _ _ => true
  | _ => false

/-- Message-only traces without error frames keep the connection
pending: no error flag, not closed, promise unsettled. -/
theorem steps_msgs_pending :
    ∀ (evs : List ConnEvent) (st : ConnState),
      st.hasError = false → st.closed = false → st.result = none →
      (∀ e ∈ evs, ∃ f, e = ConnEvent.message f ∧ isErrFrame f = false) →
      (evs.foldl step st).hasError = false ∧
      (evs.foldl step st).closed = false ∧
      (evs.foldl step st).result = none := by
  intro evs
  induction evs with
  | nil => intro st h1 h2 h3 _; exact ⟨h1, h2, h3⟩
  | cons e rest ih =>
    intro st h1 h2 h3 hev
    obtain ⟨f, rfl, hf⟩ := hev e (by simp)
    have hrest : ∀ e ∈ rest, ∃ f, e = ConnEvent.message f ∧ isErrFrame f = false :=
      fun e he => hev e (by simp [he])
    rw [List.foldl_cons]
    have hstep : (step st (ConnEvent.message f)).hasError = false ∧
        (step st (ConnEvent.message f)).closed = false ∧
        (step st (ConnEvent.message f)).result = none := by
      simp only [step]
      rw [if_neg (by simp [h2])]
      cases hdf : decodeFrame f <;> simp only [hdf] <;>
        simp_all [isErrFrame, hdf]
    exact ih _ hstep.1 hstep.2.1 hstep.2.2 hrest

/-! ### Claim C2 -/

/-- C2: in a streaming synthesis call whose connection has neither
closed nor delivered an error frame when the 15-second hard timeout
fires, the timeout handler resolves the promise with the accumulated
chunks concatenated in receipt order when at least one chunk was
accumulated, and rejects with a timeout error when none was. -/
theorem claimC2_ok (evs : List ConnEvent)
    (hmsg : ∀ e ∈ evs, ∃ f, e = ConnEvent.message f ∧ isErrFrame f = false) :
    (¬(runEvents evs).audioChunks.isEmpty = true →
      (step (runEvents evs) ConnEvent.timeout).result =
        some (TTSOutcome.resolved (mergeBuffers (runEvents evs).audioChunks)) ∧
      mergeBuffers (runEvents evs).audioChunks =
        (runEvents evs).audioChunks.flatten) ∧
    ((runEvents evs).audioChunks.isEmpty = true →
      (step (runEvents evs) ConnEvent.timeout).result =
        some (TTSOutcome.rejected RejectReason.timedOut)) := by
  obtain ⟨g1, g2, g3⟩ := steps_msgs_pending evs initState rfl rfl rfl hmsg
  have hg1 : (runEvents evs).hasError = false := g1
  have hg2 : (runEvents evs).closed = false := g2
  have hg3 : (runEvents evs).result = none := g3
  constructor
  · intro hne
    refine ⟨?_, mergeBuffers_eq_flatten _⟩
    have hE : (runEvents evs).audioChunks.isEmpty = false :=
      Bool.eq_false_iff.mpr hne
    simp only [step]
    rw [if_neg (by simp [hg2])]
    rw [if_pos (by rw [hE, hg1]; rfl)]
    simp [settle, hg3]
  · intro hemp
    simp only [step]
    rw [if_neg (by simp [hg2])]
    rw [if_neg (by simp [hemp])]
    rw [if_pos (by simp [hg1])]
    simp [settle, hg3]

/-- A synthetic 22-byte audio frame delivering the two bytes `[5, 6]`. -/
def c2Frame : List Nat :=
  [17, 180, 16, 0, 0, 0, 0, 14, 0, 0, 1, 96, 0, 0, 0, 0, 0, 0, 0, 2, 5, 6]

/-- Witness for C2: one audio chunk and then the timeout resolves with
that chunk. -/
theorem claimC2_witness :
    (runEvents [ConnEvent.message c2Frame]).audioChunks = [[5, 6]] ∧
    (step (runEvents [ConnEvent.message c2Frame]) ConnEvent.timeout).result =
      some (TTSOutcome.resolved
        (mergeBuffers (runEvents [ConnEvent.message c2Frame]).audioChunks)) := by
  refine ⟨by decide, ?_⟩
  exact ((claimC2_ok [ConnEvent.message c2Frame]
    (fun e he => by
      rcases List.mem_singleton.mp he with rfl
      exact ⟨c2Frame, rfl, by decide⟩)).1 (by decide)).1

/-! ### Claim C9

The one-shot HTTP adapter's response validation (`callDoubaoTTS`, V1
HTTP variant): transport status, application code `3000`, and a
non-empty base64 `data` field are all checked before success. -/

/-- The credential check of the HTTP adapter:
`if (!apiKey || !appId) throw`. -/
def doubaoHttpCredCheck (apiKey appId : String) : Option RejectReason :=
  if apiKey = "" || appId = "" then some RejectReason.missingCredentials
  else none

/-- The JSON response of the HTTP adapter, as validated by the code:
`response.ok`/`status` at transport level, then `data.code`,
`data.message` and `data.data` from the body (absent fields are
`none`). -/
structure DoubaoHttpResp where
  ok : Bool
  status : Nat
  appCode : Option Nat
  message : Option String
  data : Option String
deriving DecidableEq

inductive HttpOutcome where
  | rejectedTransport (status : Nat)
  | rejectedApp (code : Option Nat) (message : Option String)
  | rejectedNoData
  | success (base64Audio : String)
deriving DecidableEq

/-- The response validation of the HTTP `callDoubaoTTS`:
`!response.ok` throws, `data.code !== 3000` throws, falsy `data.data`
(absent or empty) throws, else the base64 payload is decoded. -/
def httpValidate (resp : DoubaoHttpResp) : HttpOutcome :=
  if resp.ok = false then HttpOutcome.rejectedTransport resp.status
  else if resp.appCode ≠ some 3000 then
    HttpOutcome.rejectedApp resp.appCode resp.message
  else
    match resp.data with
    | none => HttpOutcome.rejectedNoData
    | some d =>
      if d = "" then HttpOutcome.rejectedNoData else HttpOutcome.success d

/-- C9 counterexample: a streaming audio frame whose declared audio
block has length zero (header, payload size, event code, zero-length
session id, audio length 0). -/
def c9Frame : List Nat :=
  [17, 176, 16, 0, 0, 0, 0, 12, 0, 0, 0, 96, 0, 0, 0, 0, 0, 0, 0, 0]

/-- C9 counterexample: the streaming adapter pushes the zero-length
audio block as a chunk, so the subsequent close finds
`audioChunks.length > 0` and resolves successfully with a zero-length
payload, contradicting the claim that a successful resolution never
yields a zero-length payload. -/
theorem claimC9_cx :
    (runEvents [ConnEvent.message c9Frame, ConnEvent.close 1000]).result =
      some (TTSOutcome.resolved []) ∧
    (runEvents [ConnEvent.message c9Frame,
      ConnEvent.close 1000]).audioChunks ≠ [] := by
  decide

/-- C9 (amended): all the claimed failure modes do reject — close
without any accumulated chunk, an error frame, a transport error, a
timeout with no audio, and missing credentials (both adapters), and the
HTTP adapter rejects on transport failure, non-3000 application code
and missing/empty `data`, succeeding only with a non-empty base64
field.  However (forced by the counterexample) a streaming success
payload can still be zero-length when a zero-length audio block was
accumulated, so the blanket "never zero-length" part is dropped. -/
theorem claimC9_ok :
    (∀ (st : ConnState) (code : Nat), st.result = none →
      st.hasError = false → st.audioChunks = [] →
      (step st (ConnEvent.close code)).result =
        some (TTSOutcome.rejected (RejectReason.closedNoAudio code))) ∧
    (∀ (st : ConnState) (f : List Nat) (c : Nat) (m : List Nat),
      st.result = none → st.closed = false →
      decodeFrame f = DecodeResult.errorFrame c m →
      (step st (ConnEvent.message f)).result =
        some (TTSOutcome.rejected (RejectReason.apiError c m))) ∧
    (∀ st : ConnState, st.result = none → st.hasError = false →
      (step st ConnEvent.socketError).result =
        some (TTSOutcome.rejected RejectReason.wsFailed)) ∧
    (∀ st : ConnState, st.result = none → st.hasError = false →
      st.closed = false → st.audioChunks = [] →
      (step st ConnEvent.timeout).result =
        some (TTSOutcome.rejected RejectReason.timedOut)) ∧
    (∀ appId token : String, appId = "" ∨ token = "" →
      doubaoWSCredCheck appId token = some RejectReason.missingCredentials) ∧
    (∀ apiKey appId : String, apiKey = "" ∨ appId = "" →
      doubaoHttpCredCheck apiKey appId =
        some RejectReason.missingCredentials) ∧
    (∀ resp : DoubaoHttpResp,
      (resp.ok = false →
        httpValidate resp = HttpOutcome.rejectedTransport resp.status) ∧
      (resp.ok = true → resp.appCode ≠ some 3000 →
        httpValidate resp = HttpOutcome.rejectedApp resp.appCode resp.message) ∧
      (resp.ok = true → resp.appCode = some 3000 →
        (resp.data = none ∨ resp.data = some "") →
        httpValidate resp = HttpOutcome.rejectedNoData) ∧
      (∀ d, httpValidate resp = HttpOutcome.success d →
        resp.data = some d ∧ d ≠ "")) := by
  refine ⟨?_, ?_, ?_, ?_, ?_, ?_, ?_⟩
  · intro st code h3 h1 hc
    simp only [step]
    rw [if_neg (by simp [h1])]
    rw [if_pos (by simp [hc])]
    simp [settle, h3]
  · intro st f c m h3 h2 hdf
    simp only [step]
    rw [if_neg (by simp [h2]), hdf]
    simp [settle, h3]
  · intro st h3 h1
    simp only [step]
    rw [if_neg (by simp [h1])]
    simp [settle, h3]
  · intro st h3 h1 h2 hc
    simp only [step]
    rw [if_neg (by simp [h2])]
    rw [if_neg (by simp [hc])]
    rw [if_pos (by simp [h1])]
    simp [settle, h3]
  · intro appId token h
    unfold doubaoWSCredCheck
    rcases h with h | h <;> simp [h]
  · intro apiKey appId h
    unfold doubaoHttpCredCheck
    rcases h with h | h <;> simp [h]
  · intro resp
    refine ⟨?_, ?_, ?_, ?_⟩
    · intro h; simp [httpValidate, h]
    · intro hok hcode
      simp [httpValidate, hok, hcode]
    · intro hok hcode hd
      rcases hd with hd | hd <;> simp [httpValidate, hok, hcode, hd]
    · intro d h
      unfold httpValidate at h
      by_cases hok : resp.ok = false
      · simp [hok] at h
      · rw [if_neg hok] at h
        by_cases hcode : resp.appCode ≠ some 3000
        · simp [hcode] at h
        · rw [if_neg (by simpa using hcode)] at h
          rcases hd : resp.data with _ | d2
          · rw [hd] at h; simp at h
          · rw [hd] at h
            have h2 : (if d2 = "" then HttpOutcome.rejectedNoData
                else HttpOutcome.success d2) = HttpOutcome.success d := h
            by_cases hd2 : d2 = ""
            · simp [hd2] at h2
            · rw [if_neg hd2] at h2
              cases h2
              exact ⟨rfl, hd2⟩

/-- Witness for C9 at the initial state: closing without audio
rejects. -/
theorem claimC9_witness :
    initState.result = none ∧
    (step initState (ConnEvent.close 1006)).result =
      some (TTSOutcome.rejected (RejectReason.closedNoAudio 1006)) :=
  ⟨rfl, claimC9_ok.1 initState 1006 rfl rfl rfl⟩

/-! ### Claim C3 -/

/-- C3: for every well-formed inbound audio-response frame — 4-byte
header with type nibble `0xB`, 4-byte payload size, 4-byte event code,
4-byte length-prefixed session identifier, 4-byte length-prefixed
audio-data block, optional trailing padding — the message handler
extracts exactly the bytes of the inner audio-data block, and
accumulates exactly that block as one chunk. -/
theorem claimC3_ok (h0 b1 h2 h3 sz ev : Nat) (sid audio pad : List Nat)
    (frame : List Nat)
    (hframe : frame = h0 :: b1 :: h2 :: h3 ::
      (u32be sz ++ (u32be ev ++ (u32be sid.length ++
        (sid ++ (u32be audio.length ++ (audio ++ pad)))))))
    (hb1 : b1 / 16 = 11)
    (hsz : sz < 4294967296)
    (hsid : sid.length < 4294967296) (haud : audio.length < 4294967296) :
    decodeFrame frame = DecodeResult.audio audio ∧
    ∀ st : ConnState, st.closed = false →
      step st (ConnEvent.message frame) =
        { st with audioChunks := st.audioChunks ++ [audio] } := by
  subst hframe
  set frame : List Nat := h0 :: b1 :: h2 :: h3 ::
      (u32be sz ++ (u32be ev ++ (u32be sid.length ++
        (sid ++ (u32be audio.length ++ (audio ++ pad)))))) with hfr
  have e8 : getU8 frame 1 = some b1 := rfl
  have e4 : getU32BE frame 4 = some sz := getU32BE_spec rfl hsz
  have e12 : getU32BE frame 12 = some sid.length := getU32BE_spec rfl hsid
  have h16 : frame.drop (16 + sid.length) =
      u32be audio.length ++ (audio ++ pad) := by
    have hdd : (frame.drop 16).drop sid.length = frame.drop (16 + sid.length) :=
      List.drop_drop sid.length 16 frame
    have h1 : frame.drop 16 = sid ++ (u32be audio.length ++ (audio ++ pad)) := rfl
    rw [← hdd, h1, List.drop_left]
  have e16 : getU32BE frame (16 + sid.length) = some audio.length :=
    getU32BE_spec h16 haud
  have hlen : frame.length = 20 + sid.length + audio.length + pad.length := by
    simp [hfr, u32be, List.length_append]
    omega
  have hguard : 20 + sid.length + audio.length ≤ frame.length := by
    rw [hlen]; omega
  have hex : (frame.drop (20 + sid.length)).take audio.length = audio := by
    have hdd : (frame.drop (16 + sid.length)).drop 4 =
        frame.drop (16 + sid.length + 4) :=
      List.drop_drop 4 (16 + sid.length) frame
    have h20 : 20 + sid.length = 16 + sid.length + 4 := by omega
    rw [h20, ← hdd, h16]
    have h4 : (u32be audio.length ++ (audio ++ pad)).drop 4 = audio ++ pad := rfl
    rw [h4]
    exact List.take_left audio pad
  have hdec : decodeFrame frame = DecodeResult.audio audio := by
    simp only [decodeFrame, e8, e4, hb1, e12, e16]
    rw [if_pos trivial, if_pos hguard, hex]
  refine ⟨hdec, ?_⟩
  intro st hcl
  simp only [step]
  rw [if_neg (by simp [hcl]), hdec]

/-- Witness for C3: a concrete frame with session id `[7]`, audio block
`[1, 2, 3]` and one byte of padding. -/
theorem claimC3_witness :
    decodeFrame (17 :: 187 :: 16 :: 0 ::
      (u32be 14 ++ (u32be 352 ++ (u32be 1 ++
        ([7] ++ (u32be 3 ++ ([1, 2, 3] ++ [9]))))))) =
      DecodeResult.audio [1, 2, 3] ∧
    step initState (ConnEvent.message (17 :: 187 :: 16 :: 0 ::
      (u32be 14 ++ (u32be 352 ++ (u32be 1 ++
        ([7] ++ (u32be 3 ++ ([1, 2, 3] ++ [9])))))))) =
      { initState with audioChunks := [[1, 2, 3]] } := by
  have h := claimC3_ok 17 187 16 0 14 352 [7] [1, 2, 3] [9] _ rfl
    (by decide) (by decide) (by decide) (by decide)
  exact ⟨h.1, h.2 initState rfl⟩

/-! ### Claim C4 -/

/-- The message-type nibble the handler reads (`getUint8(1) >> 4`). -/
def msgTypeOf (b : List Nat) : Nat := (getU8 b 1).getD 0 / 16

/-- The session-identifier length field (`getUint32(12)`). -/
def sidLenOf (b : List Nat) : Nat := (getU32BE b 12).getD 0

/-- The audio length field (`getUint32(16 + sessionIdLen)`). -/
def audioLenOf (b : List Nat) : Nat := (getU32BE b (16 + sidLenOf b)).getD 0

/-- C4 counterexample: the claim says decoding never throws on
truncated frames, but on a 12-byte audio-typed frame (header, payload
size, event code, nothing more) the unguarded `getUint32(12)` read for
the session-identifier length is out of bounds and throws. -/
theorem claimC4_cx :
    decodeFrame [17, 176, 16, 0, 0, 0, 0, 100, 0, 0, 0, 96] =
      DecodeResult.threw := by
  decide

/-- C4 (amended): decoding never throws *provided the declared fixed
fields lie within the frame* — at least 8 bytes always, 16 bytes and
`20 + sessionIdLen` bytes for audio-typed frames, 12 bytes for
error-typed frames; within those bounds, a declared audio block that
would extend past the end of the frame is treated as no audio
extracted.  Frames shorter than the fixed fields make the handler throw
(forced by the counterexample). -/
theorem claimC4_ok (b : List Nat) (h8 : 8 ≤ b.length)
    (hb11 : msgTypeOf b = 11 → 16 ≤ b.length ∧ 20 + sidLenOf b ≤ b.length)
    (hb15 : msgTypeOf b = 15 → 12 ≤ b.length) :
    decodeFrame b ≠ DecodeResult.threw ∧
    (msgTypeOf b = 11 → b.length < 20 + sidLenOf b + audioLenOf b →
      decodeFrame b = DecodeResult.noAudio) := by
  obtain ⟨t1, ht1⟩ := exists_getU8 (show (1:Nat) < b.length by omega)
  obtain ⟨ps, hps⟩ := exists_getU32BE (show 4 + 4 ≤ b.length by omega)
  have hmt : msgTypeOf b = t1 / 16 := by simp [msgTypeOf, ht1]
  by_cases h11 : t1 / 16 = 11
  · obtain ⟨hblen, hb2len⟩ := hb11 (by rw [hmt, h11])
    obtain ⟨s, hs⟩ := exists_getU32BE (show 12 + 4 ≤ b.length by omega)
    have hsl : sidLenOf b = s := by simp [sidLenOf, hs]
    rw [hsl] at hb2len
    obtain ⟨a, ha⟩ := exists_getU32BE (show (16 + s) + 4 ≤ b.length by omega)
    have hal : audioLenOf b = a := by simp [audioLenOf, hsl, ha]
    have hdf : decodeFrame b = (if 20 + s + a ≤ b.length
        then DecodeResult.audio ((b.drop (20 + s)).take a)
        else DecodeResult.noAudio) := by
      simp only [decodeFrame, ht1, hps, h11, if_true, hs, ha]
    constructor
    · rw [hdf]; split <;> simp
    · intro _ hlt
      rw [hsl, hal] at hlt
      rw [hdf, if_neg (by omega)]
  · by_cases h15 : t1 / 16 = 15
    · have h12 := hb15 (by rw [hmt, h15])
      obtain ⟨c, hc⟩ := exists_getU32BE (show 8 + 4 ≤ b.length by omega)
      have hdf : decodeFrame b = DecodeResult.errorFrame c (b.drop 12) := by
        simp only [decodeFrame, ht1, hps, hc]
        rw [if_neg h11, if_pos h15]
      refine ⟨by rw [hdf]; simp, ?_⟩
      intro hm
      rw [hmt] at hm
      exact absurd hm h11
    · have hdf : decodeFrame b = DecodeResult.ignored := by
        simp only [decodeFrame, ht1, hps]
        rw [if_neg h11, if_neg h15]
      refine ⟨by rw [hdf]; simp, ?_⟩
      intro hm
      rw [hmt] at hm
      exact absurd hm h11

/-- Witness for C4: an in-bounds audio frame does not throw, and an
in-bounds frame whose declared audio block overruns the frame yields
`noAudio`. -/
theorem claimC4_witness :
    decodeFrame [17, 191, 16, 0, 0, 0, 0, 1, 9, 9, 9, 9, 0, 0, 0, 1, 7,
        0, 0, 0, 3, 1, 2, 3] ≠ DecodeResult.threw ∧
    decodeFrame [17, 191, 16, 0, 0, 0, 0, 1, 9, 9, 9, 9, 0, 0, 0, 1, 7,
        0, 0, 0, 100] = DecodeResult.noAudio :=
  ⟨(claimC4_ok _ (by decide) (by decide) (by decide)).1,
   (claimC4_ok _ (by decide) (by decide) (by decide)).2
     (by decide) (by decide)⟩

/-! ## Cache keys (`getCacheKey`)

The source builds the key as a template string: the fixed prefix
followed by the percent-encoded text, then the voice and speed fields
separated by ampersands.  `encodeURIComponent` leaves
`A-Z a-z 0-9 - _ . ! ~ * ( )` and the apostrophe intact and
percent-encodes every other character's UTF-8 bytes with uppercase hex
digits.  The interpolated speed is a JavaScript number rendering, which
never contains an ampersand; it enters the model as its rendered
string. -/

/-- The ampersand character, the query-string field separator. -/
def ampChar : Char := Char.ofNat 38

/-- Uppercase hexadecimal digit. -/
def hexDigit (n : Nat) : Char :=
  if n < 10 then Char.ofNat (48 + n) else Char.ofNat (55 + n)

/-- Percent escape of one byte. -/
def pctByte (b : Nat) : List Char :=
  [Char.ofNat 37, hexDigit (b / 16), hexDigit (b % 16)]

/-- UTF-8 encoding of one scalar value. -/
def utf8Bytes (c : Char) : List Nat :=
  let n := c.toNat
  if n < 128 then [n]
  else if n < 2048 then [192 + n / 64, 128 + n % 64]
  else if n < 65536 then [224 + n / 4096, 128 + n / 64 % 64, 128 + n % 64]
  else [240 + n / 262144, 128 + n / 4096 % 64, 128 + n / 64 % 64, 128 + n % 64]

/-- The characters `encodeURIComponent` leaves unescaped. -/
def isUnreserved (c : Char) : Bool :=
  c.isAlpha || c.isDigit || c = '-' || c = '_' || c = '.' || c = '!' ||
  c = '~' || c = '*' || c = Char.ofNat 39 || c = '(' || c = ')'

/-- `encodeURIComponent` on one character. -/
def encChar (c : Char) : List Char :=
  if isUnreserved c then [c] else (utf8Bytes c).flatMap pctByte

/-- `encodeURIComponent`. -/
def encodeURIComponent (s : String) : String :=
  String.mk (s.data.flatMap encChar)

/-- `getCacheKey(text, voice, speed)` with the speed already rendered
to its decimal string. -/
def getCacheKey (text voice speedStr : String) : String :=
  "https://local-tts-cache.app/doubao?text=" ++ encodeURIComponent text ++
    "&voice=" ++ voice ++ "&speed=" ++ speedStr

/-! ### Decoding one encoded character -/

/-- Value of an uppercase-hex digit character. -/
def hexVal (c : Char) : Option Nat :=
  if 48 ≤ c.toNat ∧ c.toNat ≤ 57 then some (c.toNat - 48)
  else if 65 ≤ c.toNat ∧ c.toNat ≤ 70 then some (c.toNat - 55)
  else none

/-- Parse a percent escape at the front of the list. -/
def pctAt (l : List Char) : Option Nat :=
  match l with
  | p :: a :: b :: _ =>
    if p = Char.ofNat 37 then
      match hexVal a, hexVal b with
      | some x, some y => some (16 * x + y)
      | _, _ => none
    else none
  | _ => none

/-- Decode one `encChar`-encoded character from the front of a list,
returning the character and the number of characters consumed.  A
percent escape at the front selects the UTF-8 path (the leading byte
determines the sequence length); otherwise the head character stands
for itself. -/
def decEncChar (l : List Char) : Option (Char × Nat) :=
  match pctAt l with
  | none =>
    match l with
    | [] => none
    | c :: _ => if c = Char.ofNat 37 then none else some (c, 1)
  | some b0 =>
    if b0 < 128 then some (Char.ofNat b0, 3)
    else if b0 < 192 then none
    else if b0 < 224 then
      match pctAt (l.drop 3) with
      | some b1 => some (Char.ofNat ((b0 - 192) * 64 + (b1 - 128)), 6)
      | none => none
    else if b0 < 240 then
      match pctAt (l.drop 3), pctAt (l.drop 6) with
      | some b1, some b2 =>
        some (Char.ofNat (((b0 - 224) * 64 + (b1 - 128)) * 64 + (b2 - 128)), 9)
      | _, _ => none
    else
      match pctAt (l.drop 3), pctAt (l.drop 6), pctAt (l.drop 9) with
      | some b1, some b2, some b3 =>
        some (Char.ofNat ((((b0 - 240) * 64 + (b1 - 128)) * 64 +
          (b2 - 128)) * 64 + (b3 - 128)), 12)
      | _, _, _ => none

theorem char_toNat_lt (c : Char) : c.toNat < 1114112 := by
  have h := c.valid
  rcases h with h | ⟨h1, h2⟩
  · show c.val.toNat < 1114112; omega
  · show c.val.toNat < 1114112; omega

theorem hexVal_hexDigit {x : Nat} (hx : x < 16) :
    hexVal (hexDigit x) = some x := by
  interval_cases x <;> decide

theorem hexDigit_ne_pct {x : Nat} (hx : x < 16) :
    ¬hexDigit x = Char.ofNat 37 := by
  interval_cases x <;> decide

theorem hexDigit_ne_amp {x : Nat} (hx : x < 16) :
    ¬hexDigit x = ampChar := by
  interval_cases x <;> decide

theorem pctAt_pctByte {b : Nat} (hb : b < 256) (r : List Char) :
    pctAt (pctByte b ++ r) = some b := by
  show pctAt (Char.ofNat 37 :: hexDigit (b / 16) :: hexDigit (b % 16) :: r) =
    some b
  simp only [pctAt]
  rw [if_pos trivial, hexVal_hexDigit (show b / 16 < 16 by omega),
    hexVal_hexDigit (show b % 16 < 16 by omega)]
  show some (16 * (b / 16) + b % 16) = some b
  refine congrArg some ?_
  omega

theorem utf8Bytes_lt (c : Char) : ∀ b ∈ utf8Bytes c, b < 256 := by
  have hv := char_toNat_lt c
  unfold utf8Bytes
  by_cases h1 : c.toNat < 128
  · simp only [h1, if_true]
    intro b hb
    simp at hb
    omega
  · by_cases h2 : c.toNat < 2048
    · simp only [h1, h2, if_true, if_false]
      intro b hb
      simp at hb
      rcases hb with rfl | rfl <;> omega
    · by_cases h3 : c.toNat < 65536
      · simp only [h1, h2, h3, if_true, if_false]
        intro b hb
        simp at hb
        rcases hb with rfl | rfl | rfl <;> omega
      · simp only [h1, h2, h3, if_false]
        intro b hb
        simp at hb
        rcases hb with rfl | rfl | rfl | rfl <;> omega

theorem pctAt_not_pct {c : Char} (hc : ¬c = Char.ofNat 37) (r : List Char) :
    pctAt (c :: r) = none := by
  rcases r with _ | ⟨a, _ | ⟨b, t⟩⟩ <;> simp [pctAt, hc]

theorem pct_drop3 (b : Nat) (r : List Char) : (pctByte b ++ r).drop 3 = r := rfl

theorem unreserved_ne_pct {c : Char} (hu : isUnreserved c = true) :
    ¬c = Char.ofNat 37 := by
  intro h
  subst h
  exact absurd hu (by decide)

/-- Round trip: decoding the front of `encChar c ++ rest` recovers `c`
and consumes exactly the encoding.  This makes `encChar` a prefix code,
which gives injectivity of `encodeURIComponent`. -/
theorem decEncChar_encChar (c : Char) (rest : List Char) :
    decEncChar (encChar c ++ rest) = some (c, (encChar c).length) := by
  by_cases hu : isUnreserved c
  · have hc : encChar c = [c] := by simp [encChar, hu]
    rw [hc, List.singleton_append]
    have hne : ¬c = Char.ofNat 37 := unreserved_ne_pct hu
    simp only [decEncChar, pctAt_not_pct hne, if_neg hne, List.length_singleton]
  · have hval := char_toNat_lt c
    have hc : encChar c = (utf8Bytes c).flatMap pctByte := by simp [encChar, hu]
    by_cases h1 : c.toNat < 128
    · have hb : utf8Bytes c = [c.toNat] := by
        unfold utf8Bytes; rw [if_pos h1]
      have hsp : encChar c ++ rest = pctByte c.toNat ++ rest := by
        rw [hc, hb]; simp
      have hlen : (encChar c).length = 3 := by
        rw [hc, hb]; rfl
      rw [hsp, hlen]
      simp only [decEncChar, pctAt_pctByte (show c.toNat < 256 by omega)]
      rw [if_pos h1, Char.ofNat_toNat]
    · by_cases h2 : c.toNat < 2048
      · have hb : utf8Bytes c = [192 + c.toNat / 64, 128 + c.toNat % 64] := by
          unfold utf8Bytes; rw [if_neg h1, if_pos h2]
        have hsp : encChar c ++ rest =
            pctByte (192 + c.toNat / 64) ++ (pctByte (128 + c.toNat % 64) ++ rest) := by
          rw [hc, hb]; simp
        have hlen : (encChar c).length = 6 := by
          rw [hc, hb]; rfl
        rw [hsp, hlen]
        simp only [decEncChar,
          pctAt_pctByte (show 192 + c.toNat / 64 < 256 by omega), pct_drop3,
          pctAt_pctByte (show 128 + c.toNat % 64 < 256 by omega)]
        rw [if_neg (by omega), if_neg (by omega), if_pos (by omega)]
        have harith : (192 + c.toNat / 64 - 192) * 64 + (128 + c.toNat % 64 - 128) =
            c.toNat := by omega
        rw [harith, Char.ofNat_toNat]
      · by_cases h3 : c.toNat < 65536
        · have hb : utf8Bytes c = [224 + c.toNat / 4096, 128 + c.toNat / 64 % 64,
              128 + c.toNat % 64] := by
            unfold utf8Bytes; rw [if_neg h1, if_neg h2, if_pos h3]
          have hsp : encChar c ++ rest =
              pctByte (224 + c.toNat / 4096) ++ (pctByte (128 + c.toNat / 64 % 64) ++
                (pctByte (128 + c.toNat % 64) ++ rest)) := by
            rw [hc, hb]; simp
          have hlen : (encChar c).length = 9 := by
            rw [hc, hb]; rfl
          have hd6 : (pctByte (224 + c.toNat / 4096) ++ (pctByte (128 + c.toNat / 64 % 64) ++
              (pctByte (128 + c.toNat % 64) ++ rest))).drop 6 =
                pctByte (128 + c.toNat % 64) ++ rest := rfl
          rw [hsp, hlen]
          simp only [decEncChar,
            pctAt_pctByte (show 224 + c.toNat / 4096 < 256 by omega), pct_drop3, hd6,
            pctAt_pctByte (show 128 + c.toNat / 64 % 64 < 256 by omega),
            pctAt_pctByte (show 128 + c.toNat % 64 < 256 by omega)]
          rw [if_neg (by omega), if_neg (by omega), if_neg (by omega), if_pos (by omega)]
          have harith : ((224 + c.toNat / 4096 - 224) * 64 +
              (128 + c.toNat / 64 % 64 - 128)) * 64 + (128 + c.toNat % 64 - 128) =
              c.toNat := by omega
          rw [harith, Char.ofNat_toNat]
        · have hb : utf8Bytes c = [240 + c.toNat / 262144, 128 + c.toNat / 4096 % 64,
              128 + c.toNat / 64 % 64, 128 + c.toNat % 64] := by
            unfold utf8Bytes; rw [if_neg h1, if_neg h2, if_neg h3]
          have hsp : encChar c ++ rest =
              pctByte (240 + c.toNat / 262144) ++ (pctByte (128 + c.toNat / 4096 % 64) ++
                (pctByte (128 + c.toNat / 64 % 64) ++
                  (pctByte (128 + c.toNat % 64) ++ rest))) := by
            rw [hc, hb]; simp
          have hlen : (encChar c).length = 12 := by
            rw [hc, hb]; rfl
          have hd6 : (pctByte (240 + c.toNat / 262144) ++ (pctByte (128 + c.toNat / 4096 % 64) ++
              (pctByte (128 + c.toNat / 64 % 64) ++
                (pctByte (128 + c.toNat % 64) ++ rest)))).drop 6 =
              pctByte (128 + c.toNat / 64 % 64) ++ (pctByte (128 + c.toNat % 64) ++ rest) := rfl
          have hd9 : (pctByte (240 + c.toNat / 262144) ++ (pctByte (128 + c.toNat / 4096 % 64) ++
              (pctByte (128 + c.toNat / 64 % 64) ++
                (pctByte (128 + c.toNat % 64) ++ rest)))).drop 9 =
              pctByte (128 + c.toNat % 64) ++ rest := rfl
          rw [hsp, hlen]
          simp only [decEncChar,
            pctAt_pctByte (show 240 + c.toNat / 262144 < 256 by omega), pct_drop3, hd6, hd9,
            pctAt_pctByte (show 128 + c.toNat / 4096 % 64 < 256 by omega),
            pctAt_pctByte (show 128 + c.toNat / 64 % 64 < 256 by omega),
            pctAt_pctByte (show 128 + c.toNat % 64 < 256 by omega)]
          rw [if_neg (by omega), if_neg (by omega), if_neg (by omega), if_neg (by omega)]
          have harith : (((240 + c.toNat / 262144 - 240) * 64 +
              (128 + c.toNat / 4096 % 64 - 128)) * 64 +
              (128 + c.toNat / 64 % 64 - 128)) * 64 + (128 + c.toNat % 64 - 128) =
              c.toNat := by omega
          rw [harith, Char.ofNat_toNat]
theorem encChar_ne_nil (c : Char) : encChar c ≠ [] := by
  intro h
  have hd := decEncChar_encChar c []
  rw [h] at hd
  simp [decEncChar, pctAt] at hd

theorem data_inj {s₁ s₂ : String} (h : s₁.data = s₂.data) : s₁ = s₂ := by
  have h2 : String.mk s₁.data = String.mk s₂.data := congrArg String.mk h
  exact h2

theorem flatMap_encChar_inj :
    ∀ l₁ l₂ : List Char, l₁.flatMap encChar = l₂.flatMap encChar → l₁ = l₂ := by
  intro l₁
  induction l₁ with
  | nil =>
    intro l₂ h
    cases l₂ with
    | nil => rfl
    | cons c t =>
      exfalso
      simp only [List.flatMap_nil, List.flatMap_cons] at h
      rcases List.append_eq_nil.mp h.symm with ⟨h1, _⟩
      exact encChar_ne_nil c h1
  | cons c t ih =>
    intro l₂ h
    cases l₂ with
    | nil =>
      exfalso
      simp only [List.flatMap_nil, List.flatMap_cons] at h
      rcases List.append_eq_nil.mp h with ⟨h1, _⟩
      exact encChar_ne_nil c h1
    | cons c2 t2 =>
      simp only [List.flatMap_cons] at h
      have e1 := decEncChar_encChar c (t.flatMap encChar)
      have e2 := decEncChar_encChar c2 (t2.flatMap encChar)
      rw [h, e2] at e1
      have hc : c2 = c := (Prod.mk.injEq _ _ _ _).mp (Option.some.inj e1) |>.1
      subst hc
      have ht : t.flatMap encChar = t2.flatMap encChar :=
        List.append_cancel_left h
      rw [ih t2 ht]

theorem enc_inj {t₁ t₂ : String}
    (h : encodeURIComponent t₁ = encodeURIComponent t₂) : t₁ = t₂ := by
  have hd : t₁.data.flatMap encChar = t₂.data.flatMap encChar :=
    congrArg String.data h
  exact data_inj (flatMap_encChar_inj _ _ hd)

theorem amp_not_mem_encChar (c : Char) : ampChar ∉ encChar c := by
  by_cases hu : isUnreserved c
  · intro hmem
    rw [show encChar c = [c] by simp [encChar, hu]] at hmem
    rcases List.mem_singleton.mp hmem with rfl
    exact absurd hu (by decide)
  · intro hmem
    rw [show encChar c = (utf8Bytes c).flatMap pctByte by simp [encChar, hu]] at hmem
    rcases List.mem_flatMap.mp hmem with ⟨b, hb, hpb⟩
    have hb256 := utf8Bytes_lt c b hb
    have hpb2 : ampChar = Char.ofNat 37 ∨ ampChar = hexDigit (b / 16) ∨
        ampChar = hexDigit (b % 16) := by simpa [pctByte] using hpb
    rcases hpb2 with h | h | h
    · exact absurd h (by decide)
    · exact hexDigit_ne_amp (show b / 16 < 16 by omega) h.symm
    · exact hexDigit_ne_amp (show b % 16 < 16 by omega) h.symm

theorem amp_not_mem_enc (t : String) : ampChar ∉ (encodeURIComponent t).data := by
  intro hmem
  rcases List.mem_flatMap.mp hmem with ⟨c, _, hc⟩
  exact amp_not_mem_encChar c hc
theorem tw_app_stop {p : Char → Bool} :
    ∀ {l₁ : List Char}, (∀ c ∈ l₁, p c = true) → ∀ {c : Char}, p c = false →
      ∀ l₂, (l₁ ++ c :: l₂).takeWhile p = l₁ := by
  intro l₁
  induction l₁ with
  | nil =>
    intro _ c hc l₂
    simp [List.takeWhile, hc]
  | cons a t ih =>
    intro h1 c hc l₂
    have ha : p a = true := h1 a (by simp)
    simp only [List.cons_append, List.takeWhile_cons_of_pos ha]
    rw [ih (fun x hx => h1 x (by simp [hx])) hc l₂]

theorem dw_app_stop {p : Char → Bool} :
    ∀ {l₁ : List Char}, (∀ c ∈ l₁, p c = true) → ∀ {c : Char}, p c = false →
      ∀ l₂, (l₁ ++ c :: l₂).dropWhile p = c :: l₂ := by
  intro l₁
  induction l₁ with
  | nil =>
    intro _ c hc l₂
    simp [List.dropWhile, hc]
  | cons a t ih =>
    intro h1 c hc l₂
    have ha : p a = true := h1 a (by simp)
    simp only [List.cons_append, List.dropWhile_cons_of_pos ha]
    exact ih (fun x hx => h1 x (by simp [hx])) hc l₂

/-- Recover `(encodedText, voice, speedStr)` from a cache key: drop the
40-character fixed prefix, split the encoded text at the first
ampersand, and split voice from speed at the last ampersand. -/
def parseKey (k : String) : String × String × String :=
  (String.mk ((k.data.drop 40).takeWhile (fun c => c != ampChar)),
   String.mk ((((((k.data.drop 40).dropWhile (fun c => c != ampChar)).drop 7).reverse.dropWhile
     (fun c => c != ampChar)).drop 1).reverse),
   String.mk (((((k.data.drop 40).dropWhile (fun c => c != ampChar)).drop 7).reverse.takeWhile
     (fun c => c != ampChar)).reverse.drop 6))

theorem parseKey_spec (t v s : String) (hs : ampChar ∉ s.data) :
    parseKey (getCacheKey t v s) = (encodeURIComponent t, v, s) := by
  have hE : ∀ c ∈ (encodeURIComponent t).data, (c != ampChar) = true := by
    intro c hc
    have : ¬c = ampChar := fun h => amp_not_mem_enc t (h ▸ hc)
    simp [this]
  have hamp : (ampChar != ampChar) = false := by simp
  have hdata : (getCacheKey t v s).data =
      ("https://local-tts-cache.app/doubao?text=" : String).data ++
        ((encodeURIComponent t).data ++ (ampChar ::
          (("voice=" : String).data ++ (v.data ++ (ampChar ::
            (("speed=" : String).data ++ s.data)))))) := by
    show (((((("https://local-tts-cache.app/doubao?text=" : String) ++
      encodeURIComponent t) ++ "&voice=") ++ v) ++ "&speed=") ++ s).data = _
    simp only [String.data_append, List.append_assoc]
    rfl
  have h40 : (getCacheKey t v s).data.drop 40 =
      (encodeURIComponent t).data ++ (ampChar ::
        (("voice=" : String).data ++ (v.data ++ (ampChar ::
          (("speed=" : String).data ++ s.data))))) := by
    rw [hdata]
    exact List.drop_left' rfl
  have hdw : ((getCacheKey t v s).data.drop 40).dropWhile (fun c => c != ampChar) =
      ampChar :: (("voice=" : String).data ++ (v.data ++ (ampChar ::
        (("speed=" : String).data ++ s.data)))) := by
    rw [h40]
    exact dw_app_stop hE hamp _
  have hdw7 : (((getCacheKey t v s).data.drop 40).dropWhile
      (fun c => c != ampChar)).drop 7 =
      v.data ++ (ampChar :: (("speed=" : String).data ++ s.data)) := by
    rw [hdw]
    show ((ampChar :: ("voice=" : String).data) ++ (v.data ++ (ampChar ::
      (("speed=" : String).data ++ s.data)))).drop 7 = _
    exact List.drop_left' rfl
  have hrev : (v.data ++ (ampChar :: (("speed=" : String).data ++ s.data))).reverse =
      (s.data.reverse ++ ("=deeps" : String).data) ++
        (ampChar :: v.data.reverse) := by
    simp only [List.reverse_append, List.reverse_cons, List.append_assoc]
    rfl
  have hS : ∀ c ∈ s.data.reverse ++ ("=deeps" : String).data, (c != ampChar) = true := by
    intro c hc
    rcases List.mem_append.mp hc with hc | hc
    · have : ¬c = ampChar := fun h => hs (h ▸ List.mem_reverse.mp hc)
      simp [this]
    · fin_cases hc <;> decide
  refine Prod.ext ?_ (Prod.ext ?_ ?_)
  · show String.mk (((getCacheKey t v s).data.drop 40).takeWhile
      (fun c => c != ampChar)) = encodeURIComponent t
    rw [h40, tw_app_stop hE hamp]
  · show String.mk ((((((getCacheKey t v s).data.drop 40).dropWhile
      (fun c => c != ampChar)).drop 7).reverse.dropWhile
        (fun c => c != ampChar)).drop 1).reverse = v
    rw [hdw7, hrev, dw_app_stop hS hamp]
    simp
  · show String.mk ((((((getCacheKey t v s).data.drop 40).dropWhile
      (fun c => c != ampChar)).drop 7).reverse.takeWhile
        (fun c => c != ampChar)).reverse.drop 6) = s
    rw [hdw7, hrev, tw_app_stop hS hamp]
    have : (s.data.reverse ++ ("=deeps" : String).data).reverse =
        ("speed=" : String).data ++ s.data := by
      simp only [List.reverse_append, List.reverse_reverse]
      rfl
    rw [this]
    have h6 : (("speed=" : String).data ++ s.data).drop 6 = s.data :=
      List.drop_left' rfl
    rw [h6]
/-- C7: the cache key construction is stable and injective on
(text, voice, speed): two keys are equal exactly when all three fields
agree.  The speed field enters as its JavaScript number rendering,
which never contains an ampersand (the hypothesis); text and voice are
arbitrary.  Injectivity holds because the percent-encoded text contains
no ampersand (so the first ampersand ends it), the speed rendering
contains none (so the last ampersand precedes it), and
`encodeURIComponent` is injective. -/
theorem claimC7_ok (t₁ v₁ s₁ t₂ v₂ s₂ : String)
    (h₁ : ampChar ∉ s₁.data) (h₂ : ampChar ∉ s₂.data) :
    getCacheKey t₁ v₁ s₁ = getCacheKey t₂ v₂ s₂ ↔ t₁ = t₂ ∧ v₁ = v₂ ∧ s₁ = s₂ := by
  constructor
  · intro h
    have hp := congrArg parseKey h
    rw [parseKey_spec t₁ v₁ s₁ h₁, parseKey_spec t₂ v₂ s₂ h₂] at hp
    rw [Prod.mk.injEq, Prod.mk.injEq] at hp
    exact ⟨enc_inj hp.1, hp.2.1, hp.2.2⟩
  · rintro ⟨rfl, rfl, rfl⟩
    rfl

/-- Witness for C7: keys for speeds rendered "1" and "2" differ. -/
theorem claimC7_witness :
    ampChar ∉ ("1" : String).data ∧ ampChar ∉ ("2" : String).data ∧
    getCacheKey "a" "v" "1" ≠ getCacheKey "a" "v" "2" :=
  ⟨by decide, by decide, fun h => by
    have h2 := (claimC7_ok "a" "v" "1" "a" "v" "2" (by decide) (by decide)).mp h
    exact absurd h2.2.2 (by decide)⟩

/-! ## Cache invalidation (`clearUnitCache`)

The cache manager stores one entry per `getCacheKey` URL; on
`clearUnitCache(fullText)` it re-splits the passage with the shared
`splitSentences`, then walks every cached request, reads the `text`
query parameter (`url.searchParams.get` percent-decodes it) and removes
the entry when that decoded text is truthy and contained in the derived
sentence list, counting deletions. -/

/-- Percent-decoding of an encoded component (as `URLSearchParams.get`
performs on the `text` parameter).  Fuelled by the input length; one
`decEncChar` step consumes at least one character. -/
def decodePercentAux : Nat → List Char → List Char
  | 0, _ => []
  | fuel + 1, l =>
    match decEncChar l with
    | some (c, k) => c :: decodePercentAux fuel (l.drop k)
    | none =>
      match l with
      | [] => []
      | c :: cs => c :: decodePercentAux fuel cs

def decodePercent (l : List Char) : List Char :=
  decodePercentAux l.length l

theorem decodePercentAux_enc :
    ∀ (l : List Char) (fuel : Nat), (l.flatMap encChar).length ≤ fuel →
      decodePercentAux fuel (l.flatMap encChar) = l := by
  intro l
  induction l with
  | nil =>
    intro fuel _
    cases fuel with
    | zero => rfl
    | succ f => rfl
  | cons c t ih =>
    intro fuel hf
    have hne := encChar_ne_nil c
    have hlc : 1 ≤ (encChar c).length := List.length_pos.mpr hne
    simp only [List.flatMap_cons] at hf ⊢
    rw [List.length_append] at hf
    cases fuel with
    | zero => omega
    | succ f =>
      simp only [decodePercentAux, decEncChar_encChar c (t.flatMap encChar)]
      rw [List.drop_left]
      rw [ih f (by omega)]

theorem decodePercent_enc (l : List Char) :
    decodePercent (l.flatMap encChar) = l :=
  decodePercentAux_enc l _ le_rfl

/-- One cached TTS response: the request fields (which determine its
`getCacheKey` URL) and the stored audio bytes. -/
structure CacheEntry where
  text : String
  voice : String
  speed : String
  payload : List Nat
deriving DecidableEq

/-- `url.searchParams.get` on the entry's stored key URL: the decoded
`text` parameter. -/
def cachedTextOf (e : CacheEntry) : String :=
  String.mk (decodePercent ((parseKey (getCacheKey e.text e.voice e.speed)).1.data))

theorem cachedTextOf_eq (e : CacheEntry) (hs : ampChar ∉ e.speed.data) :
    cachedTextOf e = e.text := by
  unfold cachedTextOf
  rw [parseKey_spec e.text e.voice e.speed hs]
  show String.mk (decodePercent (e.text.data.flatMap encChar)) = e.text
  rw [decodePercent_enc e.text.data]

/-- The deletion condition `cachedText && sentences.includes(cachedText)`. -/
def matchesUnit (sentences : List String) (e : CacheEntry) : Bool :=
  cachedTextOf e != "" && sentences.contains (cachedTextOf e)

def clearLoop (sentences : List String) : List CacheEntry → Nat × List CacheEntry
  | [] => (0, [])
  | e :: es =>
    let r := clearLoop sentences es
    if matchesUnit sentences e then (r.1 + 1, r.2) else (r.1, e :: r.2)

/-- `clearUnitCache`: empty sentence list leaves the cache untouched and
returns 0; otherwise every matching entry is deleted and counted. -/
def clearUnitCache (fullText : String) (cache : List CacheEntry) :
    Nat × List CacheEntry :=
  let sentences := splitSentences fullText
  if sentences.isEmpty then (0, cache)
  else clearLoop sentences cache

theorem clearLoop_spec (sentences : List String) :
    ∀ cache : List CacheEntry,
      clearLoop sentences cache =
        ((cache.filter (fun e => matchesUnit sentences e)).length,
         cache.filter (fun e => !matchesUnit sentences e)) := by
  intro cache
  induction cache with
  | nil => rfl
  | cons e es ih =>
    by_cases hm : matchesUnit sentences e
    · simp [clearLoop, ih, hm, List.filter_cons]
    · simp [clearLoop, ih, hm, List.filter_cons]
/-- C8: for every passage and cache contents (with the speed fields of
the stored keys ampersand-free, as every real key is), `clearUnitCache`
removes exactly the entries whose stored text equals one of the
sentences derived by the shared splitting rule, returns the number
removed, and leaves every other entry in place (hence retrievable,
payload untouched). -/
theorem claimC8_ok (fullText : String) (cache : List CacheEntry)
    (hsp : ∀ e ∈ cache, ampChar ∉ e.speed.data) :
    (clearUnitCache fullText cache).2 =
      cache.filter (fun e => !((splitSentences fullText).contains e.text)) ∧
    (clearUnitCache fullText cache).1 =
      (cache.filter (fun e => (splitSentences fullText).contains e.text)).length ∧
    (∀ e ∈ cache, e.text ∈ splitSentences fullText →
      e ∉ (clearUnitCache fullText cache).2) ∧
    (∀ e ∈ cache, e.text ∉ splitSentences fullText →
      e ∈ (clearUnitCache fullText cache).2) := by
  have hpt : ∀ e ∈ cache, matchesUnit (splitSentences fullText) e =
      (splitSentences fullText).contains e.text := by
    intro e he
    unfold matchesUnit
    rw [cachedTextOf_eq e (hsp e he)]
    by_cases hc : (splitSentences fullText).contains e.text
    · have hmem : e.text ∈ splitSentences fullText := by simpa using hc
      have hne : e.text ≠ "" := (length_pos_iff e.text).mp (mem_splitSentences hmem).1
      simp [hc, hne]
    · simp only [Bool.eq_false_iff.mpr hc, Bool.and_false]
  have hpt2 : ∀ e ∈ cache, (!matchesUnit (splitSentences fullText) e) =
      !((splitSentences fullText).contains e.text) := by
    intro e he
    rw [hpt e he]
  have heq : clearUnitCache fullText cache =
      ((cache.filter (fun e => (splitSentences fullText).contains e.text)).length,
       cache.filter (fun e => !((splitSentences fullText).contains e.text))) := by
    unfold clearUnitCache
    by_cases hemp : (splitSentences fullText).isEmpty
    · have hnil : splitSentences fullText = [] := List.isEmpty_iff.mp hemp
      simp [hemp, hnil]
    · simp only [hemp, Bool.false_eq_true, if_false]
      rw [clearLoop_spec]
      rw [List.filter_congr hpt, List.filter_congr hpt2]
  refine ⟨by rw [heq], by rw [heq], ?_, ?_⟩
  · intro e he hmem hin
    rw [heq] at hin
    have := (List.mem_filter.mp hin).2
    simp at this
    exact this hmem
  · intro e he hmem
    rw [heq]
    refine List.mem_filter.mpr ⟨he, ?_⟩
    simpa using hmem

/-- A concrete cache: two entries from passage `"Hello world. Bye."`
and one from another passage. -/
def cacheW : List CacheEntry :=
  [{ text := "Hello world.", voice := "v1", speed := "1", payload := [1] },
   { text := "Bye.", voice := "v2", speed := "1", payload := [2] },
   { text := "Other.", voice := "v1", speed := "1", payload := [3] }]

/-- Witness for C8: clearing the unit for `"Hello world. Bye."` removes
only that passage's two entries and counts them; the third entry stays. -/
theorem claimC8_witness :
    (∀ e ∈ cacheW, ampChar ∉ e.speed.data) ∧
    (clearUnitCache "Hello world. Bye." cacheW).2 =
      cacheW.filter
        (fun e => !((splitSentences "Hello world. Bye.").contains e.text)) ∧
    (clearUnitCache "Hello world. Bye." cacheW).1 =
      (cacheW.filter
        (fun e => (splitSentences "Hello world. Bye.").contains e.text)).length :=
  ⟨by decide, (claimC8_ok "Hello world. Bye." cacheW (by decide)).1,
   (claimC8_ok "Hello world. Bye." cacheW (by decide)).2.1⟩

end PostgradTTS
